import Mathlib

/-!
Verification of the dependency-driven build scheduler at the bottom of
makepanda/makepanda.py ("Dependency-Based Distributed Build System").

The scheduler works over tasks of the shape
  task = [CompileAnything, [name, inputs, opts], [name], deps, altdeps]
so task[1] is the argument list handed to the action, task[1][1] the ordered
input list, task[2] the declared outputs, task[3] the explicit deps and
task[4] the alternate ("soft") deps.  The embedding below translates
AllSourcesReady, BuildWorker, ParallelMake, SequentialMake and
RunDependencyQueue.  NeedsBuild, JustBuilt and SaveDependencyCache live in
makepandacore, which is not part of these sources; they are treated as an
oracle parameter (NeedsBuild) and as trace events (JustBuilt,
SaveDependencyCache), following the spec's description of needsBuild,
recordBuilt and save.

Worker concurrency is modelled by interleaving: an oracle chooses which
in-flight task the completion-queue pop returns, and a function decides
whether a task's action raises.  The scheduler itself runs as a fuel-indexed
state-transition function that also records a ghost trace of events and the
sequence of states at each entry of the while loop.
-/

set_option autoImplicit false

namespace Makepanda

/-- One entry of DEPENDENCYQUEUE:
[CompileAnything, [name, inputs, opts], [name], deps, altdeps]. -/
structure Task where
  name : String
  inputs : List String
  opts : List String
  outputs : List String
  deps : List String
  altdeps : List String
  deriving DecidableEq, Repr

/-- Events observed during a run (ghost trace).  The argument fields of
needsBuildEv, justBuiltEv and actionRun record the values actually passed at
the corresponding call site in the source. -/
inductive Event where
  | needsBuildEv (t : Task) (outputsArg depsArg : List String) (res : Bool)
  | dispatch (t : Task) (pendingAt : List String) (queuedAfter : Nat)
  | skipEv (t : Task) (pendingAfter : List String)
  | actionRun (t : Task) (nameArg : String) (inputsArg : List String) (optsArg : List String)
  | justBuiltEv (t : Task) (outputsArg depsArg : List String)
  | failSentinel
  | saveCache
  deriving DecidableEq, Repr

/-- AllSourcesReady(task, pending): checks task[3], then task[1][1], then
task[4] against the pending dict. -/
def AllSourcesReady (task : Task) (pending : List String) : Bool :=
  task.deps.all (fun x => !(decide (x ∈ pending))) &&
  task.inputs.all (fun x => !(decide (x ∈ pending))) &&
  task.altdeps.all (fun x => !(decide (x ∈ pending)))

/-! ### BuildWorker

A worker loops on the task queue.  The timeout branch of taskqueue.get only
prints a liveness message and retries, so it has no semantic effect.  A task
equal to 0 ends the loop; otherwise the worker runs task[0](*task[1]) inside
try/except, pushing the task itself on the done queue on success and the
sentinel 0 on any exception. -/

/-- An entry of the worker's task queue: a task, or the stop signal 0. -/
inductive WorkItem where
  | stop
  | task (t : Task)
  deriving DecidableEq, Repr

/-- An entry of the done queue: a completed task, or the failure sentinel 0. -/
inductive DoneEntry where
  | ok (t : Task)
  | sentinel
  deriving DecidableEq, Repr

/-- The tasks a worker actually executes: every task item before the first
stop signal. -/
def tasksBeforeStop : List WorkItem → List Task
  | [] => []
  | WorkItem.stop :: _ => []
  | WorkItem.task t :: rest => t :: tasksBeforeStop rest

/-- BuildWorker, as a function from the sequence of task-queue items the
worker receives to the sequence of done-queue entries it pushes.  actionOk
tells whether a task's action returns normally (true) or raises (false). -/
def BuildWorker (actionOk : Task → Bool) : List WorkItem → List DoneEntry
  | [] => []
  | WorkItem.stop :: _ => []
  | WorkItem.task t :: rest =>
      (if actionOk t then DoneEntry.ok t else DoneEntry.sentinel) ::
        BuildWorker actionOk rest

/-! ### SequentialMake

for task in tasklist:
    if NeedsBuild(task[2], task[3]):
        task[0](*task[1] + [(i * 100.0) / len(tasklist)])
        JustBuilt(task[2], task[3])
    i += 1

The trailing progress percentage appended to the action's arguments is
UI-only and is not part of the event record. -/

def seqGo (nb : List String → List String → Bool) : List Task → List Event
  | [] => []
  | t :: rest =>
      if nb t.outputs t.deps then
        Event.needsBuildEv t t.outputs t.deps true ::
        Event.actionRun t t.name t.inputs t.opts ::
        Event.justBuiltEv t t.outputs t.deps ::
        seqGo nb rest
      else
        Event.needsBuildEv t t.outputs t.deps false :: seqGo nb rest

/-- SequentialMake(tasklist), as the trace of events it produces, with
NeedsBuild supplied as the oracle nb. -/
def SequentialMake (nb : List String → List String → Bool) (tasklist : List Task) :
    List Event :=
  seqGo nb tasklist

/-- The tasks whose action is invoked, in order of invocation, in a trace. -/
def runsIn (evs : List Event) : List Task :=
  evs.filterMap (fun e =>
    match e with
    | Event.actionRun t _ _ _ => some t
    | _ => none)

/-! ### ParallelMake

State of the scheduling loop: the remaining task list, the pending dict
(modelled as a duplicate-free list of keys), the in-flight tasks (put on the
task queue, result not yet consumed from the done queue) and the tasksqueued
counter.  The pending dict maps every key to the placeholder 1, so only its
key set matters. -/

structure PMState where
  tasklist : List Task
  pending : List String
  inflight : List Task
  tasksqueued : Nat
  deriving DecidableEq, Repr

/-- for target in task[2]: del pending[target] -/
def delTargets (pending : List String) (targets : List String) : List String :=
  targets.foldl (fun p tgt => p.erase tgt) pending

/-- pending = {}; for task in tasklist: for target in task[2]: pending[target] = 1
(dict keys are unique, hence the insert-if-absent fold). -/
def seedPending (tasklist : List Task) : List String :=
  tasklist.foldl
    (fun p t => t.outputs.foldl (fun p' o => if o ∈ p' then p' else p' ++ [o]) p) []

/-- Result of one pass of the inner for-loop over tasklist (the scan that
builds extras, dispatches ready stale tasks and deletes the outputs of ready
up-to-date ones). -/
structure ScanResult where
  extras : List Task
  pending : List String
  tasksqueued : Nat
  dispatched : List Task
  events : List Event
  deriving DecidableEq, Repr

/-- The inner for-loop of ParallelMake:
for task in tasklist:
    if tasksqueued < THREADCOUNT and AllSourcesReady(task, pending):
        if NeedsBuild(task[2], task[3]): tasksqueued += 1; taskqueue.put(task)
        else: for target in task[2]: del pending[target]
    else: extras.append(task) -/
def scanTasks (nb : List String → List String → Bool) (tc : Nat) :
    List Task → List String → Nat → ScanResult
  | [], pending, tq => ⟨[], pending, tq, [], []⟩
  | t :: rest, pending, tq =>
      if tq < tc && AllSourcesReady t pending then
        if nb t.outputs t.deps then
          let r := scanTasks nb tc rest pending (tq + 1)
          { r with
              dispatched := t :: r.dispatched,
              events := Event.needsBuildEv t t.outputs t.deps true ::
                        Event.dispatch t pending (tq + 1) :: r.events }
        else
          let pending' := delTargets pending t.outputs
          let r := scanTasks nb tc rest pending' tq
          { r with
              events := Event.needsBuildEv t t.outputs t.deps false ::
                        Event.skipEv t pending' :: r.events }
      else
        let r := scanTasks nb tc rest pending tq
        { r with extras := t :: r.extras }

/-- The guarded scan at the top of the while loop:
if tasksqueued < THREADCOUNT: ...scan...; tasklist = extras -/
def loopScan (nb : List String → List String → Bool) (tc : Nat) (st : PMState) :
    PMState × List Event :=
  if st.tasksqueued < tc then
    let r := scanTasks nb tc st.tasklist st.pending st.tasksqueued
    ({ tasklist := r.extras, pending := r.pending,
       inflight := st.inflight ++ r.dispatched, tasksqueued := r.tasksqueued },
     r.events)
  else (st, [])

/-- Outcome of a run of the ParallelMake loop. -/
inductive PMOutcome where
  | success
  | abortFailure
  | abortDependency (remaining : List Task)
  | outOfFuel
  deriving DecidableEq, Repr

/-- A run: its outcome, ghost event trace, final state, and the state at each
entry of the while loop. -/
structure RunResult where
  outcome : PMOutcome
  trace : List Event
  final : PMState
  states : List PMState
  deriving DecidableEq, Repr

/-- Code after the while loop ends by break: one stop signal per worker is
pushed, then the unsatisfied-task check
if len(tasklist) > 0: exit("Dependency problems: ...").
In this source break is only reached with tasklist empty, so the
abortDependency branch is dead, but it is kept for fidelity. -/
def afterLoop (evs : List Event) (st : PMState) : RunResult :=
  if st.tasklist.isEmpty then ⟨PMOutcome.success, evs, st, []⟩
  else ⟨PMOutcome.abortDependency st.tasklist, evs, st, []⟩

/-- Result of one iteration of the while loop: either the loop ends with a
run result (whose states field is filled by the driver), or it goes around
again with a successor state, having emitted some events. -/
inductive StepRes where
  | stop (r : RunResult)
  | next (st : PMState) (evs : List Event)
  deriving DecidableEq, Repr

/-- One iteration of the while loop of ParallelMake.  oracle picks which
in-flight task the blocking donequeue.get() returns (tick is the current
fuel, fed to the oracle); actionFails tells whether that task's action
raised, in which case its worker pushed the sentinel 0 (see BuildWorker).

Python source of the loop body:
    if tasksqueued < THREADCOUNT: ...scan..., tasklist = extras
    if tasksqueued == 0:
        if len(tasklist) > 0: continue
        break
    donetask = donequeue.get()
    if donetask == 0: exit("Build process aborting.")
    tasksqueued -= 1
    JustBuilt(donetask[2], donetask[3])
    for target in donetask[2]: del pending[target] -/
def pmStep (nb : List String → List String → Bool) (tc : Nat)
    (oracle : Nat → Nat) (actionFails : Task → Bool) (tick : Nat) (st : PMState) :
    StepRes :=
  let p := loopScan nb tc st
  let st1 := p.1
  let evs1 := p.2
  if st1.tasksqueued = 0 then
    if st1.tasklist.isEmpty then
      StepRes.stop (afterLoop evs1 st1)
    else
      StepRes.next st1 evs1
  else
    match st1.inflight with
    | [] => StepRes.stop ⟨PMOutcome.outOfFuel, evs1, st1, []⟩
    | t0 :: restIn =>
        let donetask := (t0 :: restIn).getD (oracle tick % (t0 :: restIn).length) t0
        if actionFails donetask then
          StepRes.stop ⟨PMOutcome.abortFailure,
            evs1 ++ [Event.actionRun donetask donetask.name donetask.inputs donetask.opts,
                     Event.failSentinel],
            st1, []⟩
        else
          StepRes.next
            { tasklist := st1.tasklist,
              pending := delTargets st1.pending donetask.outputs,
              inflight := (t0 :: restIn).erase donetask,
              tasksqueued := st1.tasksqueued - 1 }
            (evs1 ++ [Event.actionRun donetask donetask.name donetask.inputs donetask.opts,
                      Event.justBuiltEv donetask donetask.outputs donetask.deps])

/-- The while loop of ParallelMake, fuel-indexed; one fuel unit is one
iteration of the while loop. -/
def pmLoop (nb : List String → List String → Bool) (tc : Nat)
    (oracle : Nat → Nat) (actionFails : Task → Bool) :
    Nat → PMState → RunResult
  | 0, st => ⟨PMOutcome.outOfFuel, [], st, [st]⟩
  | fuel + 1, st =>
      match pmStep nb tc oracle actionFails fuel st with
      | StepRes.stop r => { r with states := st :: r.states }
      | StepRes.next st' evs =>
          let r := pmLoop nb tc oracle actionFails fuel st'
          ⟨r.outcome, evs ++ r.trace, r.final, st :: r.states⟩

/-- The state ParallelMake builds before entering the loop. -/
def initState (tasklist : List Task) : PMState :=
  ⟨tasklist, seedPending tasklist, [], 0⟩

/-- The worker threads ParallelMake creates:
for slave in range(THREADCOUNT): th = Thread(...); th.daemon = True; th.start(). -/
def createWorkers (tc : Nat) : List (Nat × Bool) :=
  (List.range tc).map (fun slave => (slave, true))

/-- ParallelMake(tasklist), with NeedsBuild as oracle nb, THREADCOUNT = tc,
and the interleaving oracles for completions. -/
def ParallelMake (nb : List String → List String → Bool) (tc : Nat)
    (oracle : Nat → Nat) (actionFails : Task → Bool) (fuel : Nat)
    (tasklist : List Task) : RunResult :=
  pmLoop nb tc oracle actionFails fuel (initState tasklist)

/-- RunDependencyQueue(tasklist): ParallelMake if THREADCOUNT != 0 else
SequentialMake. -/
def RunDependencyQueue (nb : List String → List String → Bool) (tc : Nat)
    (oracle : Nat → Nat) (actionFails : Task → Bool) (fuel : Nat)
    (tasklist : List Task) : PMOutcome × List Event :=
  if tc ≠ 0 then
    let r := ParallelMake nb tc oracle actionFails fuel tasklist
    (r.outcome, r.trace)
  else
    (PMOutcome.success, SequentialMake nb tasklist)

/-- Modelled from the spec: SaveDependencyCache is defined in makepandacore,
which is not among these sources; per the spec's save(), it serializes the
cache and is here recorded as the single trace event Event.saveCache.  The
top level of makepanda.py runs
    try: RunDependencyQueue(DEPENDENCYQUEUE)
    finally: SaveDependencyCache()
so the save event is appended whether the queue run completed or aborted. -/
def runBuild (nb : List String → List String → Bool) (tc : Nat)
    (oracle : Nat → Nat) (actionFails : Task → Bool) (fuel : Nat)
    (tasklist : List Task) : PMOutcome × List Event :=
  let r := RunDependencyQueue nb tc oracle actionFails fuel tasklist
  (r.1, r.2 ++ [Event.saveCache])

/-! ### Trace classifiers and auxiliary notions -/

/-- Whether an event is a skip of task t. -/
def Event.isSkipOf (t : Task) : Event → Bool
  | Event.skipEv t' _ => decide (t' = t)
  | _ => false

/-- Whether an event is an action invocation of task t. -/
def Event.isRunOf (t : Task) : Event → Bool
  | Event.actionRun t' _ _ _ => decide (t' = t)
  | _ => false

/-- Whether an event is a JustBuilt call for task t. -/
def Event.isJustBuiltOf (t : Task) : Event → Bool
  | Event.justBuiltEv t' _ _ => decide (t' = t)
  | _ => false

/-- Whether an event is a dispatch of task t. -/
def Event.isDispatchOf (t : Task) : Event → Bool
  | Event.dispatch t' _ _ => decide (t' = t)
  | _ => false

/-- The kinds of events the scan (the inner for-loop) can emit. -/
def Event.scanKind : Event → Bool
  | Event.needsBuildEv _ _ _ _ => true
  | Event.dispatch _ _ _ => true
  | Event.skipEv _ _ => true
  | _ => false

/-- All declared output names of a list of tasks. -/
def allOutputs (l : List Task) : List String :=
  l.flatMap Task.outputs

/-- Two tasks have disjoint declared outputs (the registry's contract that
output names are globally unique). -/
def OutDisj (t1 t2 : Task) : Prop :=
  ∀ x ∈ t1.outputs, x ∉ t2.outputs

instance outDisjDecidable : DecidableRel OutDisj :=
  fun a b => List.decidableBAll (fun x => x ∉ b.outputs) a.outputs

/-- The call-site arguments recorded in an event agree with the task's own
fields: NeedsBuild and JustBuilt receive (task[2], task[3]) and the action
receives task[1] = [name, inputs, opts]. -/
def ArgsOk : Event → Prop
  | Event.needsBuildEv t os ds _ => os = t.outputs ∧ ds = t.deps
  | Event.justBuiltEv t os ds => os = t.outputs ∧ ds = t.deps
  | Event.actionRun t n ins os => n = t.name ∧ ins = t.inputs ∧ os = t.opts
  | _ => True

/-! ### Concrete tasks used in witnesses and counterexamples -/

def taskA : Task := ⟨"a", [], [], ["a"], [], []⟩

def taskB : Task := ⟨"b", [], [], ["b"], ["a"], []⟩

def taskD : Task := ⟨"d", [], [], ["d"], [], []⟩

/-- A task whose explicit dep is its own output: an unsatisfiable
dependency. -/
def taskCyclic : Task := ⟨"c", [], [], ["c"], ["c"], []⟩

/-- Invariant of the scheduling loop tying the Pending Set to the incomplete
tasks: the pending keys are duplicate-free, the tasks that have not yet
completed (still on the task list, or in flight) have pairwise disjoint
outputs, and pending holds exactly the declared outputs of those tasks. -/
def PendingInv (st : PMState) : Prop :=
  st.pending.Nodup ∧
  List.Pairwise OutDisj (st.tasklist ++ st.inflight) ∧
  ∀ x, x ∈ st.pending ↔ x ∈ allOutputs (st.tasklist ++ st.inflight)

end Makepanda

/-! ## Theorems -/

namespace Makepanda

theorem allSourcesReady_iff (t : Task) (p : List String) :
    AllSourcesReady t p = true ↔
      (∀ x ∈ t.deps, x ∉ p) ∧ (∀ x ∈ t.inputs, x ∉ p) ∧ (∀ x ∈ t.altdeps, x ∉ p) := by
  simp only [AllSourcesReady, Bool.and_eq_true, List.all_eq_true, Bool.not_eq_true',
    decide_eq_false_iff_not]
  tauto

/-- C6: BuildWorker converts its task-queue input into done-queue output one
entry at a time: every task item before the first stop signal yields exactly
one done entry, namely the task itself when its action returns normally and
the failure sentinel 0 when the action raises; being a total function of its
queue, the worker loop itself never crashes on an action's exception. -/
theorem buildWorker_one_entry_per_task (actionOk : Task → Bool) (q : List WorkItem) :
    BuildWorker actionOk q =
      (tasksBeforeStop q).map
        (fun t => if actionOk t then DoneEntry.ok t else DoneEntry.sentinel) := by
  induction q with
  | nil => rfl
  | cons item rest ih =>
      cases item with
      | stop => rfl
      | task t => simp [BuildWorker, tasksBeforeStop, ih]

/-- C5 counterexample: with the task list [taskB, taskA], where taskB's
explicit dep "a" is taskA's declared output, SequentialMake executes taskB
first, before the task producing its dep has run at all, while ParallelMake
on the same list executes taskA strictly before taskB.  So the N=0 fallback
does not run the readiness loop and does not enforce the dependency order
ParallelMake enforces. -/
theorem sequentialMake_ignores_dependency_order :
    "a" ∈ taskB.deps ∧ "a" ∈ taskA.outputs ∧
    runsIn (SequentialMake (fun _ _ => true) [taskB, taskA]) = [taskB, taskA] ∧
    runsIn (ParallelMake (fun _ _ => true) 1 (fun _ => 0) (fun _ => false) 9
        [taskB, taskA]).trace = [taskA, taskB] := by
  decide

/-- C5 (amended): with concurrency width 0, SequentialMake executes tasks
strictly one at a time on the calling thread, but it performs no readiness
check at all: it invokes the actions of exactly the tasks for which
NeedsBuild returns true, in the order of the task list, regardless of
whether the producers of their inputs, explicit deps or alternate deps have
completed. -/
theorem sequentialMake_runs_in_list_order (nb : List String → List String → Bool)
    (tasklist : List Task) :
    runsIn (SequentialMake nb tasklist) =
      tasklist.filter (fun t => nb t.outputs t.deps) := by
  induction tasklist with
  | nil => rfl
  | cons t rest ih =>
      by_cases h : nb t.outputs t.deps
      · simp [SequentialMake, seqGo, runsIn, h] at ih ⊢
        exact ih
      · simp [SequentialMake, seqGo, runsIn, h] at ih ⊢
        exact ih

theorem not_mem_delTargets {x : String} :
    ∀ (os : List String) (p : List String), x ∉ p → x ∉ delTargets p os := by
  intro os
  induction os with
  | nil => intro p h; simpa [delTargets] using h
  | cons a rest ih =>
      intro p h
      have : x ∉ p.erase a := fun hx => h (List.mem_of_mem_erase hx)
      simpa [delTargets] using ih (p.erase a) this

theorem delTargets_nodup {p : List String} :
    ∀ (os : List String), p.Nodup → (delTargets p os).Nodup := by
  intro os
  induction os generalizing p with
  | nil => intro h; simpa [delTargets] using h
  | cons a rest ih =>
      intro h
      simpa [delTargets] using ih (p := p.erase a) (h.erase a)

theorem mem_delTargets {x : String} :
    ∀ (os : List String) (p : List String), p.Nodup →
      (x ∈ delTargets p os ↔ x ∈ p ∧ x ∉ os) := by
  intro os
  induction os with
  | nil => intro p _; simp [delTargets]
  | cons a rest ih =>
      intro p hnd
      have h1 : x ∈ delTargets (p.erase a) rest ↔ x ∈ p.erase a ∧ x ∉ rest :=
        ih (p.erase a) (hnd.erase a)
      have h2 : x ∈ p.erase a ↔ x ≠ a ∧ x ∈ p := hnd.mem_erase_iff
      simp only [delTargets, List.foldl_cons] at h1 ⊢
      rw [h1, h2]
      simp only [List.mem_cons]
      tauto

theorem mem_outputsFold (x : String) :
    ∀ (os : List String) (p : List String),
      x ∈ os.foldl (fun p' o => if o ∈ p' then p' else p' ++ [o]) p ↔ x ∈ p ∨ x ∈ os := by
  intro os
  induction os with
  | nil => intro p; simp
  | cons a rest ih =>
      intro p
      by_cases h : a ∈ p
      · rw [List.foldl_cons, if_pos h, ih]
        simp only [List.mem_cons]
        constructor
        · rintro (hx | hx)
          · exact Or.inl hx
          · exact Or.inr (Or.inr hx)
        · rintro (hx | hx | hx)
          · exact Or.inl hx
          · exact Or.inl (hx ▸ h)
          · exact Or.inr hx
      · rw [List.foldl_cons, if_neg h, ih]
        simp only [List.mem_append, List.mem_singleton, List.mem_cons]
        tauto

theorem outputsFold_nodup :
    ∀ (os : List String) (p : List String), p.Nodup →
      (os.foldl (fun p' o => if o ∈ p' then p' else p' ++ [o]) p).Nodup := by
  intro os
  induction os with
  | nil => intro p h; simpa using h
  | cons a rest ih =>
      intro p h
      by_cases ha : a ∈ p
      · rw [List.foldl_cons, if_pos ha]; exact ih p h
      · rw [List.foldl_cons, if_neg ha]
        refine ih (p ++ [a]) ?_
        simp [List.nodup_append, h, ha]

theorem mem_seedFold (x : String) :
    ∀ (l : List Task) (p : List String),
      x ∈ l.foldl
          (fun p t => t.outputs.foldl (fun p' o => if o ∈ p' then p' else p' ++ [o]) p) p ↔
        x ∈ p ∨ x ∈ allOutputs l := by
  intro l
  induction l with
  | nil => intro p; simp [allOutputs]
  | cons t rest ih =>
      intro p
      rw [List.foldl_cons, ih, mem_outputsFold]
      simp only [allOutputs, List.flatMap_cons, List.mem_append]
      tauto

theorem mem_seedPending (x : String) (l : List Task) :
    x ∈ seedPending l ↔ x ∈ allOutputs l := by
  rw [seedPending, mem_seedFold]
  simp

theorem seedFold_nodup :
    ∀ (l : List Task) (p : List String), p.Nodup →
      (l.foldl
          (fun p t => t.outputs.foldl (fun p' o => if o ∈ p' then p' else p' ++ [o]) p)
          p).Nodup := by
  intro l
  induction l with
  | nil => intro p h; simpa using h
  | cons t rest ih =>
      intro p h
      rw [List.foldl_cons]
      exact ih _ (outputsFold_nodup t.outputs p h)

theorem seedPending_nodup (l : List Task) : (seedPending l).Nodup :=
  seedFold_nodup l [] List.nodup_nil

theorem scanTasks_events_kind (nb : List String → List String → Bool) (tc : Nat) :
    ∀ (l : List Task) (p : List String) (tq : Nat),
      ∀ e ∈ (scanTasks nb tc l p tq).events, Event.scanKind e = true := by
  intro l
  induction l with
  | nil => intro p tq e he; simp [scanTasks] at he
  | cons t rest ih =>
      intro p tq e he
      rw [scanTasks] at he
      split at he
      · split at he
        · simp only [List.mem_cons] at he
          rcases he with rfl | rfl | he
          · rfl
          · rfl
          · exact ih p (tq + 1) e he
        · simp only [List.mem_cons] at he
          rcases he with rfl | rfl | he
          · rfl
          · rfl
          · exact ih _ tq e he
      · exact ih p tq e he

theorem scanTasks_args (nb : List String → List String → Bool) (tc : Nat) :
    ∀ (l : List Task) (p : List String) (tq : Nat),
      ∀ e ∈ (scanTasks nb tc l p tq).events, ArgsOk e := by
  intro l
  induction l with
  | nil => intro p tq e he; simp [scanTasks] at he
  | cons t rest ih =>
      intro p tq e he
      rw [scanTasks] at he
      split at he
      · split at he
        · simp only [List.mem_cons] at he
          rcases he with rfl | rfl | he
          · exact ⟨rfl, rfl⟩
          · trivial
          · exact ih p (tq + 1) e he
        · simp only [List.mem_cons] at he
          rcases he with rfl | rfl | he
          · exact ⟨rfl, rfl⟩
          · trivial
          · exact ih _ tq e he
      · exact ih p tq e he

theorem scanTasks_dispatch_mem (nb : List String → List String → Bool) (tc : Nat)
    (t' : Task) (pAt : List String) (tqA : Nat) :
    ∀ (l : List Task) (p : List String) (tq : Nat),
      Event.dispatch t' pAt tqA ∈ (scanTasks nb tc l p tq).events →
        AllSourcesReady t' pAt = true ∧ 0 < tqA ∧ tqA ≤ tc := by
  intro l
  induction l with
  | nil => intro p tq he; simp [scanTasks] at he
  | cons t rest ih =>
      intro p tq he
      rw [scanTasks] at he
      split at he
      next hguard =>
        have hlt : tq < tc := by
          have := (Bool.and_eq_true _ _).mp hguard
          exact of_decide_eq_true this.1
        have hready : AllSourcesReady t p = true :=
          ((Bool.and_eq_true _ _).mp hguard).2
        split at he
        · simp only [List.mem_cons] at he
          rcases he with he | he | he
          · cases he
          · injection he with h1 h2 h3
            subst h1; subst h2; subst h3
            exact ⟨hready, Nat.succ_pos tq, hlt⟩
          · exact ih p (tq + 1) he
        · simp only [List.mem_cons] at he
          rcases he with he | he | he
          · cases he
          · cases he
          · exact ih _ tq he
      · exact ih p tq he

theorem scanTasks_tq_le (nb : List String → List String → Bool) (tc : Nat) :
    ∀ (l : List Task) (p : List String) (tq : Nat), tq ≤ tc →
      (scanTasks nb tc l p tq).tasksqueued ≤ tc := by
  intro l
  induction l with
  | nil => intro p tq h; simpa [scanTasks] using h
  | cons t rest ih =>
      intro p tq h
      rw [scanTasks]
      split
      next hguard =>
        have hlt : tq < tc := by
          have := (Bool.and_eq_true _ _).mp hguard
          exact of_decide_eq_true this.1
        split
        · exact ih p (tq + 1) hlt
        · exact ih _ tq h
      · exact ih p tq h

theorem scanTasks_count (nb : List String → List String → Bool) (tc : Nat) (t : Task) :
    ∀ (l : List Task) (p : List String) (tq : Nat),
      l.count t =
        (scanTasks nb tc l p tq).extras.count t +
        (scanTasks nb tc l p tq).dispatched.count t +
        (scanTasks nb tc l p tq).events.countP (Event.isSkipOf t) := by
  intro l
  induction l with
  | nil => intro p tq; simp [scanTasks]
  | cons thead rest ih =>
      intro p tq
      rw [scanTasks]
      split
      · split
        · -- dispatched
          dsimp only
          rw [List.count_cons, List.count_cons, List.countP_cons, List.countP_cons,
            ih p (tq + 1)]
          simp only [Event.isSkipOf]
          by_cases h : thead = t
          · simp [List.count_cons, h]; omega
          · simp [List.count_cons, h]
        · -- skipped
          dsimp only
          rw [List.count_cons, List.countP_cons, List.countP_cons,
            ih (delTargets p thead.outputs) tq]
          simp only [Event.isSkipOf]
          by_cases h : thead = t
          · simp [List.count_cons, h]; omega
          · simp [List.count_cons, h]
      · -- extras
        dsimp only
        rw [List.count_cons, List.count_cons, ih p tq]
        omega

theorem scanTasks_pending_nodup (nb : List String → List String → Bool) (tc : Nat) :
    ∀ (l : List Task) (p : List String) (tq : Nat), p.Nodup →
      (scanTasks nb tc l p tq).pending.Nodup := by
  intro l
  induction l with
  | nil => intro p tq h; simpa [scanTasks] using h
  | cons t rest ih =>
      intro p tq h
      rw [scanTasks]
      split
      · split
        · exact ih p (tq + 1) h
        · exact ih _ tq (delTargets_nodup t.outputs h)
      · exact ih p tq h

theorem scanTasks_skipEv_mem (nb : List String → List String → Bool) (tc : Nat)
    (t' : Task) (pA : List String) :
    ∀ (l : List Task) (p : List String) (tq : Nat), p.Nodup →
      Event.skipEv t' pA ∈ (scanTasks nb tc l p tq).events →
        ∀ o ∈ t'.outputs, o ∉ pA := by
  intro l
  induction l with
  | nil => intro p tq _ he; simp [scanTasks] at he
  | cons t rest ih =>
      intro p tq hnd he
      rw [scanTasks] at he
      split at he
      · split at he
        · simp only [List.mem_cons] at he
          rcases he with he | he | he
          · cases he
          · cases he
          · exact ih p (tq + 1) hnd he
        · simp only [List.mem_cons] at he
          rcases he with he | he | he
          · cases he
          · injection he with h1 h2
            subst h1; subst h2
            intro o ho hmem
            rw [mem_delTargets t'.outputs p hnd] at hmem
            exact hmem.2 ho
          · exact ih _ tq (delTargets_nodup t.outputs hnd) he
      · exact ih p tq hnd he

theorem getD_mem_or {α : Type} :
    ∀ (l : List α) (i : Nat) (d : α), l.getD i d ∈ l ∨ l.getD i d = d := by
  intro l
  induction l with
  | nil => intro i d; right; cases i <;> rfl
  | cons a rest ih =>
      intro i d
      cases i with
      | zero => left; simp
      | succ n =>
          rcases ih n d with h | h
          · left
            rw [List.getD_cons_succ]
            exact List.mem_cons_of_mem a h
          · right
            rw [List.getD_cons_succ]
            exact h

theorem getD_mem {α : Type} {l : List α} {i : Nat} {d : α} (hd : d ∈ l) :
    l.getD i d ∈ l := by
  rcases getD_mem_or l i d with h | h
  · exact h
  · rwa [h]

/-- The state and events produced by the guarded scan at the top of a loop
iteration. -/
def ScanRel (nb : List String → List String → Bool) (tc : Nat)
    (st st1 : PMState) (evs1 : List Event) : Prop :=
  (¬ st.tasksqueued < tc ∧ st1 = st ∧ evs1 = []) ∨
  (st.tasksqueued < tc ∧
    st1 = PMState.mk (scanTasks nb tc st.tasklist st.pending st.tasksqueued).extras
            (scanTasks nb tc st.tasklist st.pending st.tasksqueued).pending
            (st.inflight ++ (scanTasks nb tc st.tasklist st.pending st.tasksqueued).dispatched)
            (scanTasks nb tc st.tasklist st.pending st.tasksqueued).tasksqueued ∧
    evs1 = (scanTasks nb tc st.tasklist st.pending st.tasksqueued).events)

theorem loopScan_scanRel (nb : List String → List String → Bool) (tc : Nat)
    (st : PMState) :
    ScanRel nb tc st (loopScan nb tc st).1 (loopScan nb tc st).2 := by
  rw [loopScan]
  split
  next h =>
    right
    exact ⟨h, rfl, rfl⟩
  next h =>
    left
    exact ⟨h, rfl, rfl⟩

theorem pmStep_stop_elim {nb : List String → List String → Bool} {tc : Nat}
    {oracle : Nat → Nat} {af : Task → Bool} {tick : Nat} {st : PMState} {r : RunResult}
    (h : pmStep nb tc oracle af tick st = StepRes.stop r) :
    ∃ st1 evs1, ScanRel nb tc st st1 evs1 ∧
      ((st1.tasksqueued = 0 ∧ st1.tasklist = [] ∧
          r = ⟨PMOutcome.success, evs1, st1, []⟩) ∨
       (st1.tasksqueued ≠ 0 ∧ st1.inflight = [] ∧
          r = ⟨PMOutcome.outOfFuel, evs1, st1, []⟩) ∨
       (∃ donetask, st1.tasksqueued ≠ 0 ∧ donetask ∈ st1.inflight ∧ af donetask = true ∧
          r = ⟨PMOutcome.abortFailure,
               evs1 ++ [Event.actionRun donetask donetask.name donetask.inputs donetask.opts,
                        Event.failSentinel], st1, []⟩)) := by
  refine ⟨(loopScan nb tc st).1, (loopScan nb tc st).2, loopScan_scanRel nb tc st, ?_⟩
  rw [pmStep] at h
  split at h
  next h0 =>
    split at h
    next hemp =>
      left
      refine ⟨h0, List.isEmpty_iff.mp hemp, ?_⟩
      rw [afterLoop, if_pos hemp] at h
      cases h
      rfl
    next hemp =>
      cases h
  next h0 =>
    split at h
    next heq =>
      right; left
      refine ⟨h0, heq, ?_⟩
      cases h
      rfl
    next t0 restIn heq =>
      dsimp only at h
      split at h
      next hfail =>
        right; right
        refine ⟨_, h0, ?_, hfail, ?_⟩
        · rw [heq]
          exact getD_mem (List.mem_cons_self t0 restIn)
        · cases h
          rfl
      next hfail =>
        cases h

theorem pmStep_next_elim {nb : List String → List String → Bool} {tc : Nat}
    {oracle : Nat → Nat} {af : Task → Bool} {tick : Nat} {st st' : PMState}
    {evs : List Event}
    (h : pmStep nb tc oracle af tick st = StepRes.next st' evs) :
    ∃ st1 evs1, ScanRel nb tc st st1 evs1 ∧
      ((st1.tasksqueued = 0 ∧ st1.tasklist ≠ [] ∧ st' = st1 ∧ evs = evs1) ∨
       (∃ donetask, st1.tasksqueued ≠ 0 ∧ donetask ∈ st1.inflight ∧ af donetask = false ∧
          st' = ⟨st1.tasklist, delTargets st1.pending donetask.outputs,
                 st1.inflight.erase donetask, st1.tasksqueued - 1⟩ ∧
          evs = evs1 ++
            [Event.actionRun donetask donetask.name donetask.inputs donetask.opts,
             Event.justBuiltEv donetask donetask.outputs donetask.deps])) := by
  refine ⟨(loopScan nb tc st).1, (loopScan nb tc st).2, loopScan_scanRel nb tc st, ?_⟩
  rw [pmStep] at h
  split at h
  next h0 =>
    split at h
    next hemp =>
      cases h
    next hemp =>
      left
      cases h
      exact ⟨h0, fun hc => hemp (by rw [hc]; rfl), rfl, rfl⟩
  next h0 =>
    split at h
    next heq =>
      cases h
    next t0 restIn heq =>
      dsimp only at h
      split at h
      next hfail =>
        cases h
      next hfail =>
        right
        injection h with h1 h2
        subst h1
        subst h2
        refine ⟨_, h0, ?_, by simpa using hfail, ?_, rfl⟩
        · rw [heq]
          exact getD_mem (List.mem_cons_self t0 restIn)
        · rw [heq]

theorem pmLoop_succ_stop {nb : List String → List String → Bool} {tc : Nat}
    {oracle : Nat → Nat} {af : Task → Bool} {fuel : Nat} {st : PMState} {r : RunResult}
    (h : pmStep nb tc oracle af fuel st = StepRes.stop r) :
    pmLoop nb tc oracle af (fuel + 1) st = { r with states := st :: r.states } := by
  conv_lhs => rw [pmLoop]
  rw [h]

theorem pmLoop_succ_next {nb : List String → List String → Bool} {tc : Nat}
    {oracle : Nat → Nat} {af : Task → Bool} {fuel : Nat} {st st' : PMState}
    {evs : List Event}
    (h : pmStep nb tc oracle af fuel st = StepRes.next st' evs) :
    pmLoop nb tc oracle af (fuel + 1) st =
      ⟨(pmLoop nb tc oracle af fuel st').outcome,
       evs ++ (pmLoop nb tc oracle af fuel st').trace,
       (pmLoop nb tc oracle af fuel st').final,
       st :: (pmLoop nb tc oracle af fuel st').states⟩ := by
  conv_lhs => rw [pmLoop]
  rw [h]

theorem scanRel_evs {nb : List String → List String → Bool} {tc : Nat}
    {st st1 : PMState} {evs1 : List Event} (h : ScanRel nb tc st st1 evs1) :
    evs1 = [] ∨ evs1 = (scanTasks nb tc st.tasklist st.pending st.tasksqueued).events := by
  rcases h with ⟨_, _, he⟩ | ⟨_, _, he⟩
  · exact Or.inl he
  · exact Or.inr he

theorem scanRel_evs_kind {nb : List String → List String → Bool} {tc : Nat}
    {st st1 : PMState} {evs1 : List Event} (h : ScanRel nb tc st st1 evs1) :
    ∀ e ∈ evs1, Event.scanKind e = true := by
  intro e he
  rcases scanRel_evs h with rfl | hev
  · cases he
  · exact scanTasks_events_kind nb tc _ _ _ e (hev ▸ he)

theorem scanRel_tq_le {nb : List String → List String → Bool} {tc : Nat}
    {st st1 : PMState} {evs1 : List Event} (h : ScanRel nb tc st st1 evs1)
    (hst : st.tasksqueued ≤ tc) : st1.tasksqueued ≤ tc := by
  rcases h with ⟨_, rfl, _⟩ | ⟨hlt, rfl, _⟩
  · exact hst
  · exact scanTasks_tq_le nb tc _ _ _ (Nat.le_of_lt hlt)

theorem scanRel_pending_nodup {nb : List String → List String → Bool} {tc : Nat}
    {st st1 : PMState} {evs1 : List Event} (h : ScanRel nb tc st st1 evs1)
    (hst : st.pending.Nodup) : st1.pending.Nodup := by
  rcases h with ⟨_, rfl, _⟩ | ⟨_, rfl, _⟩
  · exact hst
  · exact scanTasks_pending_nodup nb tc _ _ _ hst

theorem pmLoop_dispatch (nb : List String → List String → Bool) (tc : Nat)
    (oracle : Nat → Nat) (af : Task → Bool) :
    ∀ (fuel : Nat) (st : PMState) (t' : Task) (pAt : List String) (tqA : Nat),
      Event.dispatch t' pAt tqA ∈ (pmLoop nb tc oracle af fuel st).trace →
        AllSourcesReady t' pAt = true ∧ 0 < tqA ∧ tqA ≤ tc := by
  intro fuel
  induction fuel with
  | zero => intro st t' pAt tqA he; cases he
  | succ n ih =>
      intro st t' pAt tqA he
      cases hstep : pmStep nb tc oracle af n st with
      | stop r =>
          rw [pmLoop_succ_stop hstep] at he
          obtain ⟨st1, evs1, hscan, hcases⟩ := pmStep_stop_elim hstep
          have hevs1 : ∀ e ∈ evs1, Event.scanKind e = true := scanRel_evs_kind hscan
          have hdisp : Event.dispatch t' pAt tqA ∈
              (scanTasks nb tc st.tasklist st.pending st.tasksqueued).events := by
            rcases hcases with ⟨_, _, rfl⟩ | ⟨_, _, rfl⟩ | ⟨dt, _, _, _, rfl⟩
            · rcases scanRel_evs hscan with rfl | hev
              · cases he
              · exact hev ▸ he
            · rcases scanRel_evs hscan with rfl | hev
              · cases he
              · exact hev ▸ he
            · simp only [List.mem_append, List.mem_cons] at he
              rcases he with he | he | he
              · rcases scanRel_evs hscan with rfl | hev
                · cases he
                · exact hev ▸ he
              · cases he
              · simp at he
          exact scanTasks_dispatch_mem nb tc t' pAt tqA _ _ _ hdisp
      | next st' evs =>
          rw [pmLoop_succ_next hstep] at he
          simp only [List.mem_append] at he
          rcases he with he | he
          · obtain ⟨st1, evs1, hscan, hcases⟩ := pmStep_next_elim hstep
            have hdisp : Event.dispatch t' pAt tqA ∈
                (scanTasks nb tc st.tasklist st.pending st.tasksqueued).events := by
              rcases hcases with ⟨_, _, _, rfl⟩ | ⟨dt, _, _, _, _, rfl⟩
              · rcases scanRel_evs hscan with rfl | hev
                · cases he
                · exact hev ▸ he
              · simp only [List.mem_append, List.mem_cons] at he
                rcases he with he | he | he
                · rcases scanRel_evs hscan with rfl | hev
                  · cases he
                  · exact hev ▸ he
                · cases he
                · simp at he
            exact scanTasks_dispatch_mem nb tc t' pAt tqA _ _ _ hdisp
          · exact ih st' t' pAt tqA he

theorem pmLoop_final_tq_le (nb : List String → List String → Bool) (tc : Nat)
    (oracle : Nat → Nat) (af : Task → Bool) :
    ∀ (fuel : Nat) (st : PMState), st.tasksqueued ≤ tc →
      (pmLoop nb tc oracle af fuel st).final.tasksqueued ≤ tc := by
  intro fuel
  induction fuel with
  | zero => intro st h; exact h
  | succ n ih =>
      intro st h
      cases hstep : pmStep nb tc oracle af n st with
      | stop r =>
          rw [pmLoop_succ_stop hstep]
          obtain ⟨st1, evs1, hscan, hcases⟩ := pmStep_stop_elim hstep
          have h1 : st1.tasksqueued ≤ tc := scanRel_tq_le hscan h
          rcases hcases with ⟨_, _, rfl⟩ | ⟨_, _, rfl⟩ | ⟨dt, _, _, _, rfl⟩ <;> exact h1
      | next st' evs =>
          rw [pmLoop_succ_next hstep]
          obtain ⟨st1, evs1, hscan, hcases⟩ := pmStep_next_elim hstep
          have h1 : st1.tasksqueued ≤ tc := scanRel_tq_le hscan h
          rcases hcases with ⟨_, _, rfl, _⟩ | ⟨dt, _, _, _, rfl, _⟩
          · exact ih st' h1
          · exact ih _ (Nat.le_trans (Nat.sub_le _ _) h1)

theorem pmLoop_args (nb : List String → List String → Bool) (tc : Nat)
    (oracle : Nat → Nat) (af : Task → Bool) :
    ∀ (fuel : Nat) (st : PMState),
      ∀ e ∈ (pmLoop nb tc oracle af fuel st).trace, ArgsOk e := by
  intro fuel
  induction fuel with
  | zero => intro st e he; cases he
  | succ n ih =>
      intro st e he
      cases hstep : pmStep nb tc oracle af n st with
      | stop r =>
          rw [pmLoop_succ_stop hstep] at he
          obtain ⟨st1, evs1, hscan, hcases⟩ := pmStep_stop_elim hstep
          have hargs : ∀ e' ∈ evs1, ArgsOk e' := by
            intro e' he'
            rcases scanRel_evs hscan with rfl | hev
            · cases he'
            · exact scanTasks_args nb tc _ _ _ e' (hev ▸ he')
          rcases hcases with ⟨_, _, rfl⟩ | ⟨_, _, rfl⟩ | ⟨dt, _, _, _, rfl⟩
          · exact hargs e he
          · exact hargs e he
          · simp only [List.mem_append, List.mem_cons] at he
            rcases he with he | rfl | rfl | he
            · exact hargs e he
            · exact ⟨rfl, rfl, rfl⟩
            · trivial
            · cases he
      | next st' evs =>
          rw [pmLoop_succ_next hstep] at he
          simp only [List.mem_append] at he
          rcases he with he | he
          · obtain ⟨st1, evs1, hscan, hcases⟩ := pmStep_next_elim hstep
            have hargs : ∀ e' ∈ evs1, ArgsOk e' := by
              intro e' he'
              rcases scanRel_evs hscan with rfl | hev
              · cases he'
              · exact scanTasks_args nb tc _ _ _ e' (hev ▸ he')
            rcases hcases with ⟨_, _, _, rfl⟩ | ⟨dt, _, _, _, _, rfl⟩
            · exact hargs e he
            · simp only [List.mem_append, List.mem_cons] at he
              rcases he with he | rfl | rfl | he
              · exact hargs e he
              · exact ⟨rfl, rfl, rfl⟩
              · exact ⟨rfl, rfl⟩
              · cases he
          · exact ih st' e he

theorem scanKind_elim (t : Task) (e : Event) (h : Event.scanKind e = true) :
    Event.isRunOf t e = false ∧ Event.isJustBuiltOf t e = false ∧
      e ≠ Event.failSentinel ∧ e ≠ Event.saveCache := by
  cases e <;> simp [Event.scanKind, Event.isRunOf, Event.isJustBuiltOf] at h ⊢

theorem pmLoop_no_save (nb : List String → List String → Bool) (tc : Nat)
    (oracle : Nat → Nat) (af : Task → Bool) :
    ∀ (fuel : Nat) (st : PMState),
      Event.saveCache ∉ (pmLoop nb tc oracle af fuel st).trace := by
  intro fuel
  induction fuel with
  | zero => intro st he; cases he
  | succ n ih =>
      intro st he
      cases hstep : pmStep nb tc oracle af n st with
      | stop r =>
          rw [pmLoop_succ_stop hstep] at he
          obtain ⟨st1, evs1, hscan, hcases⟩ := pmStep_stop_elim hstep
          have hkind := scanRel_evs_kind hscan
          rcases hcases with ⟨_, _, rfl⟩ | ⟨_, _, rfl⟩ | ⟨dt, _, _, _, rfl⟩
          · exact (scanKind_elim taskA _ (hkind _ he)).2.2.2 rfl
          · exact (scanKind_elim taskA _ (hkind _ he)).2.2.2 rfl
          · simp only [List.mem_append, List.mem_cons] at he
            rcases he with he | he | he | he
            · exact (scanKind_elim taskA _ (hkind _ he)).2.2.2 rfl
            · cases he
            · cases he
            · cases he
      | next st' evs =>
          rw [pmLoop_succ_next hstep] at he
          simp only [List.mem_append] at he
          rcases he with he | he
          · obtain ⟨st1, evs1, hscan, hcases⟩ := pmStep_next_elim hstep
            have hkind := scanRel_evs_kind hscan
            rcases hcases with ⟨_, _, _, rfl⟩ | ⟨dt, _, _, _, _, rfl⟩
            · exact (scanKind_elim taskA _ (hkind _ he)).2.2.2 rfl
            · simp only [List.mem_append, List.mem_cons] at he
              rcases he with he | he | he | he
              · exact (scanKind_elim taskA _ (hkind _ he)).2.2.2 rfl
              · cases he
              · cases he
              · cases he
          · exact ih st' he

theorem pmLoop_sentinel (nb : List String → List String → Bool) (tc : Nat)
    (oracle : Nat → Nat) (af : Task → Bool) :
    ∀ (fuel : Nat) (st : PMState),
      ((pmLoop nb tc oracle af fuel st).outcome = PMOutcome.abortFailure ↔
        Event.failSentinel ∈ (pmLoop nb tc oracle af fuel st).trace) ∧
      ((pmLoop nb tc oracle af fuel st).outcome = PMOutcome.abortFailure →
        ∃ pre, (pmLoop nb tc oracle af fuel st).trace = pre ++ [Event.failSentinel] ∧
          Event.failSentinel ∉ pre) := by
  intro fuel
  induction fuel with
  | zero =>
      intro st
      constructor
      · constructor
        · intro h; cases h
        · intro h; cases h
      · intro h; cases h
  | succ n ih =>
      intro st
      cases hstep : pmStep nb tc oracle af n st with
      | stop r =>
          rw [pmLoop_succ_stop hstep]
          obtain ⟨st1, evs1, hscan, hcases⟩ := pmStep_stop_elim hstep
          have hkind := scanRel_evs_kind hscan
          have hnos : Event.failSentinel ∉ evs1 := fun hmem =>
            (scanKind_elim taskA _ (hkind _ hmem)).2.2.1 rfl
          rcases hcases with ⟨_, _, rfl⟩ | ⟨_, _, rfl⟩ | ⟨dt, _, _, _, rfl⟩
          · constructor
            · constructor
              · intro h; cases h
              · intro h; exact absurd h hnos
            · intro h; cases h
          · constructor
            · constructor
              · intro h; cases h
              · intro h; exact absurd h hnos
            · intro h; cases h
          · constructor
            · constructor
              · intro _; simp
              · intro _; rfl
            · intro _
              refine ⟨evs1 ++ [Event.actionRun dt dt.name dt.inputs dt.opts], by simp, ?_⟩
              intro hmem
              simp only [List.mem_append, List.mem_cons] at hmem
              rcases hmem with hmem | hmem | hmem
              · exact hnos hmem
              · cases hmem
              · cases hmem
      | next st' evs =>
          rw [pmLoop_succ_next hstep]
          obtain ⟨st1, evs1, hscan, hcases⟩ := pmStep_next_elim hstep
          have hkind := scanRel_evs_kind hscan
          have hnos : Event.failSentinel ∉ evs := by
            rcases hcases with ⟨_, _, _, rfl⟩ | ⟨dt, _, _, _, _, rfl⟩
            · intro hmem
              exact (scanKind_elim taskA _ (hkind _ hmem)).2.2.1 rfl
            · intro hmem
              simp only [List.mem_append, List.mem_cons] at hmem
              rcases hmem with hmem | hmem | hmem | hmem
              · exact (scanKind_elim taskA _ (hkind _ hmem)).2.2.1 rfl
              · cases hmem
              · cases hmem
              · cases hmem
          obtain ⟨ih1, ih2⟩ := ih st'
          constructor
          · simp only []
            rw [ih1]
            constructor
            · intro h
              simp only [List.mem_append]
              exact Or.inr h
            · intro h
              simp only [List.mem_append] at h
              rcases h with h | h
              · exact absurd h hnos
              · exact h
          · intro h
            obtain ⟨pre, hpre, hnot⟩ := ih2 h
            refine ⟨evs ++ pre, ?_, ?_⟩
            · simp only []
              rw [hpre, List.append_assoc]
            · intro hmem
              simp only [List.mem_append] at hmem
              rcases hmem with hmem | hmem
              · exact hnos hmem
              · exact hnot hmem

theorem scanRel_count {nb : List String → List String → Bool} {tc : Nat}
    {st st1 : PMState} {evs1 : List Event} (h : ScanRel nb tc st st1 evs1) (t : Task) :
    st1.tasklist.count t + st1.inflight.count t + evs1.countP (Event.isSkipOf t) =
      st.tasklist.count t + st.inflight.count t := by
  rcases h with ⟨_, rfl, rfl⟩ | ⟨_, rfl, rfl⟩
  · simp
  · dsimp only
    rw [List.count_append]
    have := scanTasks_count nb tc t st.tasklist st.pending st.tasksqueued
    omega

theorem scanRel_countP_zero {nb : List String → List String → Bool} {tc : Nat}
    {st st1 : PMState} {evs1 : List Event} (h : ScanRel nb tc st st1 evs1) (t : Task) :
    evs1.countP (Event.isRunOf t) = 0 ∧ evs1.countP (Event.isJustBuiltOf t) = 0 := by
  have hkind := scanRel_evs_kind h
  constructor
  · rw [List.countP_eq_zero]
    intro e he
    rw [(scanKind_elim t e (hkind e he)).1]
    simp
  · rw [List.countP_eq_zero]
    intro e he
    rw [(scanKind_elim t e (hkind e he)).2.1]
    simp

theorem isSkipOf_run (t dt : Task) (nm : String) (ins os : List String) :
    Event.isSkipOf t (Event.actionRun dt nm ins os) = false := rfl

theorem isSkipOf_jb (t dt : Task) (os ds : List String) :
    Event.isSkipOf t (Event.justBuiltEv dt os ds) = false := rfl

theorem isSkipOf_sent (t : Task) : Event.isSkipOf t Event.failSentinel = false := rfl

theorem isRunOf_run (t dt : Task) (nm : String) (ins os : List String) :
    Event.isRunOf t (Event.actionRun dt nm ins os) = decide (dt = t) := rfl

theorem isRunOf_jb (t dt : Task) (os ds : List String) :
    Event.isRunOf t (Event.justBuiltEv dt os ds) = false := rfl

theorem isRunOf_sent (t : Task) : Event.isRunOf t Event.failSentinel = false := rfl

theorem isJustBuiltOf_run (t dt : Task) (nm : String) (ins os : List String) :
    Event.isJustBuiltOf t (Event.actionRun dt nm ins os) = false := rfl

theorem isJustBuiltOf_jb (t dt : Task) (os ds : List String) :
    Event.isJustBuiltOf t (Event.justBuiltEv dt os ds) = decide (dt = t) := rfl

theorem isJustBuiltOf_sent (t : Task) :
    Event.isJustBuiltOf t Event.failSentinel = false := rfl

theorem abortPair_counts (t dt : Task) :
    (([Event.actionRun dt dt.name dt.inputs dt.opts, Event.failSentinel] :
        List Event).countP (Event.isSkipOf t) = 0) ∧
    (([Event.actionRun dt dt.name dt.inputs dt.opts, Event.failSentinel] :
        List Event).countP (Event.isRunOf t) = if dt = t then 1 else 0) ∧
    (([Event.actionRun dt dt.name dt.inputs dt.opts, Event.failSentinel] :
        List Event).countP (Event.isJustBuiltOf t) = 0) := by
  refine ⟨?_, ?_, ?_⟩ <;> by_cases h : dt = t <;>
    simp [List.countP_cons, isSkipOf_run, isSkipOf_sent, isRunOf_run, isRunOf_sent,
      isJustBuiltOf_run, isJustBuiltOf_sent, h]

theorem donePair_counts (t dt : Task) :
    (([Event.actionRun dt dt.name dt.inputs dt.opts,
       Event.justBuiltEv dt dt.outputs dt.deps] : List Event).countP
        (Event.isSkipOf t) = 0) ∧
    (([Event.actionRun dt dt.name dt.inputs dt.opts,
       Event.justBuiltEv dt dt.outputs dt.deps] : List Event).countP
        (Event.isRunOf t) = if dt = t then 1 else 0) ∧
    (([Event.actionRun dt dt.name dt.inputs dt.opts,
       Event.justBuiltEv dt dt.outputs dt.deps] : List Event).countP
        (Event.isJustBuiltOf t) = if dt = t then 1 else 0) := by
  refine ⟨?_, ?_, ?_⟩ <;> by_cases h : dt = t <;>
    simp [List.countP_cons, isSkipOf_run, isSkipOf_jb, isRunOf_run, isRunOf_jb,
      isJustBuiltOf_run, isJustBuiltOf_jb, h]

theorem pmLoop_skip_run_count (nb : List String → List String → Bool) (tc : Nat)
    (oracle : Nat → Nat) (af : Task → Bool) (t : Task) :
    ∀ (fuel : Nat) (st : PMState),
      (pmLoop nb tc oracle af fuel st).trace.countP (Event.isSkipOf t) +
        (pmLoop nb tc oracle af fuel st).trace.countP (Event.isRunOf t) ≤
        st.tasklist.count t + st.inflight.count t := by
  intro fuel
  induction fuel with
  | zero => intro st; rw [pmLoop]; simp
  | succ n ih =>
      intro st
      cases hstep : pmStep nb tc oracle af n st with
      | stop r =>
          rw [pmLoop_succ_stop hstep]
          obtain ⟨st1, evs1, hscan, hcases⟩ := pmStep_stop_elim hstep
          have hc := scanRel_count hscan t
          have hz := scanRel_countP_zero hscan t
          rcases hcases with ⟨_, _, rfl⟩ | ⟨_, _, rfl⟩ | ⟨dt, _, hdt, _, rfl⟩
          · dsimp only; omega
          · dsimp only; omega
          · dsimp only
            rw [List.countP_append, List.countP_append,
              (abortPair_counts t dt).1, (abortPair_counts t dt).2.1]
            have hpos : dt = t → 0 < st1.inflight.count t := by
              intro hdt'; subst hdt'
              exact List.count_pos_iff.mpr hdt
            by_cases hdt' : dt = t
            · rw [if_pos hdt']
              have := hpos hdt'
              omega
            · rw [if_neg hdt']
              omega
      | next st' evs =>
          rw [pmLoop_succ_next hstep]
          obtain ⟨st1, evs1, hscan, hcases⟩ := pmStep_next_elim hstep
          have hc := scanRel_count hscan t
          have hz := scanRel_countP_zero hscan t
          dsimp only
          rw [List.countP_append, List.countP_append]
          rcases hcases with ⟨_, _, rfl, rfl⟩ | ⟨dt, _, hdt, _, rfl, rfl⟩
          · have := ih st'
            omega
          · have hrec := ih ⟨st1.tasklist, delTargets st1.pending dt.outputs,
              st1.inflight.erase dt, st1.tasksqueued - 1⟩
            dsimp only at hrec
            rw [List.countP_append, List.countP_append,
              (donePair_counts t dt).1, (donePair_counts t dt).2.1]
            by_cases hdt' : dt = t
            · subst hdt'
              have hpos : 0 < st1.inflight.count dt := List.count_pos_iff.mpr hdt
              have herase : (st1.inflight.erase dt).count dt = st1.inflight.count dt - 1 :=
                List.count_erase_self dt st1.inflight
              rw [if_pos rfl]
              omega
            · have herase : (st1.inflight.erase dt).count t = st1.inflight.count t :=
                List.count_erase_of_ne (fun hc' => hdt' hc'.symm) st1.inflight
              rw [if_neg hdt']
              omega

theorem pmLoop_jb_le_run (nb : List String → List String → Bool) (tc : Nat)
    (oracle : Nat → Nat) (af : Task → Bool) (t : Task) :
    ∀ (fuel : Nat) (st : PMState),
      (pmLoop nb tc oracle af fuel st).trace.countP (Event.isJustBuiltOf t) ≤
        (pmLoop nb tc oracle af fuel st).trace.countP (Event.isRunOf t) := by
  intro fuel
  induction fuel with
  | zero => intro st; rw [pmLoop]; simp
  | succ n ih =>
      intro st
      cases hstep : pmStep nb tc oracle af n st with
      | stop r =>
          rw [pmLoop_succ_stop hstep]
          obtain ⟨st1, evs1, hscan, hcases⟩ := pmStep_stop_elim hstep
          have hz := scanRel_countP_zero hscan t
          rcases hcases with ⟨_, _, rfl⟩ | ⟨_, _, rfl⟩ | ⟨dt, _, _, _, rfl⟩
          · dsimp only; omega
          · dsimp only; omega
          · dsimp only
            rw [List.countP_append, List.countP_append,
              (abortPair_counts t dt).2.1, (abortPair_counts t dt).2.2]
            by_cases hdt' : dt = t
            · rw [if_pos hdt']; omega
            · rw [if_neg hdt']; omega
      | next st' evs =>
          rw [pmLoop_succ_next hstep]
          obtain ⟨st1, evs1, hscan, hcases⟩ := pmStep_next_elim hstep
          have hz := scanRel_countP_zero hscan t
          dsimp only
          rw [List.countP_append, List.countP_append]
          rcases hcases with ⟨_, _, rfl, rfl⟩ | ⟨dt, _, _, _, rfl, rfl⟩
          · have := ih st'
            omega
          · have hrec := ih ⟨st1.tasklist, delTargets st1.pending dt.outputs,
              st1.inflight.erase dt, st1.tasksqueued - 1⟩
            rw [List.countP_append, List.countP_append,
              (donePair_counts t dt).2.1, (donePair_counts t dt).2.2]
            by_cases hdt' : dt = t
            · rw [if_pos hdt']; omega
            · rw [if_neg hdt']; omega

theorem pmLoop_skipEv_pending (nb : List String → List String → Bool) (tc : Nat)
    (oracle : Nat → Nat) (af : Task → Bool) (t' : Task) (pA : List String) :
    ∀ (fuel : Nat) (st : PMState), st.pending.Nodup →
      Event.skipEv t' pA ∈ (pmLoop nb tc oracle af fuel st).trace →
        ∀ o ∈ t'.outputs, o ∉ pA := by
  intro fuel
  induction fuel with
  | zero => intro st _ he; cases he
  | succ n ih =>
      intro st hnd he
      cases hstep : pmStep nb tc oracle af n st with
      | stop r =>
          rw [pmLoop_succ_stop hstep] at he
          obtain ⟨st1, evs1, hscan, hcases⟩ := pmStep_stop_elim hstep
          have hmem : Event.skipEv t' pA ∈
              (scanTasks nb tc st.tasklist st.pending st.tasksqueued).events := by
            rcases hcases with ⟨_, _, rfl⟩ | ⟨_, _, rfl⟩ | ⟨dt, _, _, _, rfl⟩
            · rcases scanRel_evs hscan with rfl | hev
              · cases he
              · exact hev ▸ he
            · rcases scanRel_evs hscan with rfl | hev
              · cases he
              · exact hev ▸ he
            · simp only [List.mem_append, List.mem_cons] at he
              rcases he with he | he | he | he
              · rcases scanRel_evs hscan with rfl | hev
                · cases he
                · exact hev ▸ he
              · cases he
              · cases he
              · cases he
          exact scanTasks_skipEv_mem nb tc t' pA _ _ _ hnd hmem
      | next st' evs =>
          rw [pmLoop_succ_next hstep] at he
          simp only [List.mem_append] at he
          obtain ⟨st1, evs1, hscan, hcases⟩ := pmStep_next_elim hstep
          have hnd1 : st1.pending.Nodup := scanRel_pending_nodup hscan hnd
          rcases he with he | he
          · have hmem : Event.skipEv t' pA ∈
                (scanTasks nb tc st.tasklist st.pending st.tasksqueued).events := by
              rcases hcases with ⟨_, _, _, rfl⟩ | ⟨dt, _, _, _, _, rfl⟩
              · rcases scanRel_evs hscan with rfl | hev
                · cases he
                · exact hev ▸ he
              · simp only [List.mem_append, List.mem_cons] at he
                rcases he with he | he | he | he
                · rcases scanRel_evs hscan with rfl | hev
                  · cases he
                  · exact hev ▸ he
                · cases he
                · cases he
                · cases he
            exact scanTasks_skipEv_mem nb tc t' pA _ _ _ hnd hmem
          · rcases hcases with ⟨_, _, rfl, _⟩ | ⟨dt, _, _, _, rfl, _⟩
            · exact ih st' hnd1 he
            · exact ih _ (delTargets_nodup dt.outputs hnd1) he

theorem outDisj_symm {a b : Task} (h : OutDisj a b) : OutDisj b a :=
  fun x hxb hxa => h x hxa hxb

theorem mem_allOutputs {x : String} {l : List Task} :
    x ∈ allOutputs l ↔ ∃ t ∈ l, x ∈ t.outputs := by
  simp [allOutputs, List.mem_flatMap]

theorem pairwise_outDisj_of_subperm {l1 l2 : List Task} (hs : List.Subperm l1 l2)
    (h : List.Pairwise OutDisj l2) : List.Pairwise OutDisj l1 := by
  obtain ⟨w, hperm, hsub⟩ := hs
  exact (hperm.pairwise_iff (fun {x y} hxy => outDisj_symm hxy)).mp (h.sublist hsub)

theorem scanTasks_subperm (nb : List String → List String → Bool) (tc : Nat) :
    ∀ (l : List Task) (p : List String) (tq : Nat),
      List.Subperm
        ((scanTasks nb tc l p tq).extras ++ (scanTasks nb tc l p tq).dispatched) l := by
  intro l
  induction l with
  | nil => intro p tq; rw [scanTasks]; exact List.Subperm.refl _
  | cons t rest ih =>
      intro p tq
      rw [scanTasks]
      split
      · split
        · -- dispatched
          dsimp only
          obtain ⟨w, hperm, hsub⟩ := ih p (tq + 1)
          exact ⟨t :: w, (hperm.cons t).trans List.perm_middle.symm, hsub.cons₂ t⟩
        · -- skipped
          dsimp only
          obtain ⟨w, hperm, hsub⟩ := ih (delTargets p t.outputs) tq
          exact ⟨w, hperm, hsub.cons t⟩
      · -- extras
        dsimp only
        obtain ⟨w, hperm, hsub⟩ := ih p tq
        exact ⟨t :: w, hperm.cons t, hsub.cons₂ t⟩

theorem scanTasks_mem_inv (nb : List String → List String → Bool) (tc : Nat) :
    ∀ (l : List Task) (p : List String) (tq : Nat) (D : List Task),
      p.Nodup →
      List.Pairwise OutDisj (l ++ D) →
      (∀ x, x ∈ p ↔ x ∈ allOutputs (l ++ D)) →
      ∀ x, x ∈ (scanTasks nb tc l p tq).pending ↔
        x ∈ allOutputs
          (((scanTasks nb tc l p tq).extras ++ (scanTasks nb tc l p tq).dispatched) ++ D) := by
  intro l
  induction l with
  | nil =>
      intro p tq D _ _ hmem x
      rw [scanTasks]
      dsimp only
      simpa using hmem x
  | cons t rest ih =>
      intro p tq D hnd hpw hmem x
      have hpw0 : List.Pairwise OutDisj (t :: (rest ++ D)) := by
        simpa [List.cons_append] using hpw
      rw [scanTasks]
      split
      · split
        · -- dispatch: recurse with context t :: D
          dsimp only
          have hpw' : List.Pairwise OutDisj (rest ++ t :: D) :=
            (List.perm_middle.pairwise_iff (fun {x y} hxy => outDisj_symm hxy)).mpr hpw0
          have hmem' : ∀ y, y ∈ p ↔ y ∈ allOutputs (rest ++ t :: D) := by
            intro y
            rw [hmem y]
            simp only [mem_allOutputs, List.mem_append, List.mem_cons]
            constructor <;> rintro ⟨t', ht', hy⟩ <;> exact ⟨t', by tauto, hy⟩
          have hres := ih p (tq + 1) (t :: D) hnd hpw' hmem' x
          rw [hres]
          simp only [mem_allOutputs, List.mem_append, List.mem_cons]
          constructor <;> rintro ⟨t', ht', hy⟩ <;> exact ⟨t', by tauto, hy⟩
        · -- skip: the outputs of t leave pending
          dsimp only
          have hhead : ∀ t' ∈ rest ++ D, OutDisj t t' := (List.pairwise_cons.mp hpw0).1
          have hpw' : List.Pairwise OutDisj (rest ++ D) := (List.pairwise_cons.mp hpw0).2
          have hmem' : ∀ y, y ∈ delTargets p t.outputs ↔ y ∈ allOutputs (rest ++ D) := by
            intro y
            rw [mem_delTargets t.outputs p hnd, hmem y]
            simp only [mem_allOutputs, List.mem_append, List.mem_cons]
            constructor
            · rintro ⟨⟨t', ht', hy⟩, hnot⟩
              have htne : ¬ t' = t := fun hq => hnot (hq ▸ hy)
              exact ⟨t', by tauto, hy⟩
            · rintro ⟨t', ht', hy⟩
              refine ⟨⟨t', by tauto, hy⟩, fun hyt => ?_⟩
              exact hhead t' (List.mem_append.mpr ht') y hyt hy
          exact ih (delTargets p t.outputs) tq D (delTargets_nodup t.outputs hnd) hpw' hmem' x
      · -- extras: t stays on the task list, recurse with context t :: D
        dsimp only
        have hpw' : List.Pairwise OutDisj (rest ++ t :: D) :=
          (List.perm_middle.pairwise_iff (fun {x y} hxy => outDisj_symm hxy)).mpr hpw0
        have hmem' : ∀ y, y ∈ p ↔ y ∈ allOutputs (rest ++ t :: D) := by
          intro y
          rw [hmem y]
          simp only [mem_allOutputs, List.mem_append, List.mem_cons]
          constructor <;> rintro ⟨t', ht', hy⟩ <;> exact ⟨t', by tauto, hy⟩
        have hres := ih p tq (t :: D) hnd hpw' hmem' x
        rw [hres]
        simp only [mem_allOutputs, List.mem_append, List.mem_cons]
        constructor <;> rintro ⟨t', ht', hy⟩ <;> exact ⟨t', by tauto, hy⟩

theorem scanRel_pendingInv {nb : List String → List String → Bool} {tc : Nat}
    {st st1 : PMState} {evs1 : List Event} (h : ScanRel nb tc st st1 evs1)
    (hinv : PendingInv st) : PendingInv st1 := by
  obtain ⟨hnd, hpw, hmem⟩ := hinv
  rcases h with ⟨_, rfl, _⟩ | ⟨_, rfl, _⟩
  · exact ⟨hnd, hpw, hmem⟩
  · refine ⟨scanTasks_pending_nodup nb tc _ _ _ hnd, ?_, ?_⟩
    · dsimp only
      refine pairwise_outDisj_of_subperm ?_ hpw
      have hsp := scanTasks_subperm nb tc st.tasklist st.pending st.tasksqueued
      obtain ⟨w, hp, hs⟩ := hsp
      have hperm :
          ((scanTasks nb tc st.tasklist st.pending st.tasksqueued).extras ++
            (st.inflight ++
              (scanTasks nb tc st.tasklist st.pending st.tasksqueued).dispatched)).Perm
          (((scanTasks nb tc st.tasklist st.pending st.tasksqueued).extras ++
            (scanTasks nb tc st.tasklist st.pending st.tasksqueued).dispatched) ++
            st.inflight) := by
        rw [List.append_assoc]
        exact List.Perm.append_left _ List.perm_append_comm
      refine hperm.subperm.trans ?_
      exact ⟨w ++ st.inflight, hp.append_right st.inflight, hs.append_right st.inflight⟩
    · dsimp only
      intro x
      have hres := scanTasks_mem_inv nb tc st.tasklist st.pending st.tasksqueued
        st.inflight hnd hpw hmem x
      rw [hres]
      simp only [mem_allOutputs, List.mem_append]
      constructor <;> rintro ⟨t', ht', hy⟩ <;> exact ⟨t', by tauto, hy⟩

theorem done_pendingInv {st1 : PMState} {dt : Task} (tq : Nat)
    (hinv : PendingInv st1) (hdt : dt ∈ st1.inflight) :
    PendingInv ⟨st1.tasklist, delTargets st1.pending dt.outputs,
      st1.inflight.erase dt, tq⟩ := by
  obtain ⟨hnd, hpw, hmem⟩ := hinv
  have hP : (st1.tasklist ++ st1.inflight).Perm
      (dt :: (st1.tasklist ++ st1.inflight.erase dt)) :=
    (List.Perm.append_left st1.tasklist (List.perm_cons_erase hdt)).trans List.perm_middle
  have hpw1 : List.Pairwise OutDisj (dt :: (st1.tasklist ++ st1.inflight.erase dt)) :=
    (hP.pairwise_iff (fun {x y} hxy => outDisj_symm hxy)).mp hpw
  have hhead : ∀ t' ∈ st1.tasklist ++ st1.inflight.erase dt, OutDisj dt t' :=
    (List.pairwise_cons.mp hpw1).1
  refine ⟨delTargets_nodup dt.outputs hnd, (List.pairwise_cons.mp hpw1).2, ?_⟩
  intro x
  dsimp only
  rw [mem_delTargets dt.outputs st1.pending hnd, hmem x]
  simp only [mem_allOutputs]
  constructor
  · rintro ⟨⟨t', ht', hy⟩, hnot⟩
    have ht'' : t' ∈ dt :: (st1.tasklist ++ st1.inflight.erase dt) := hP.mem_iff.mp ht'
    rcases List.mem_cons.mp ht'' with rfl | ht''
    · exact absurd hy hnot
    · exact ⟨t', ht'', hy⟩
  · rintro ⟨t', ht', hy⟩
    have ht'' : t' ∈ st1.tasklist ++ st1.inflight :=
      hP.mem_iff.mpr (List.mem_cons.mpr (Or.inr ht'))
    exact ⟨⟨t', ht'', hy⟩, fun hyt => hhead t' ht' x hyt hy⟩

theorem pmLoop_pendingInv (nb : List String → List String → Bool) (tc : Nat)
    (oracle : Nat → Nat) (af : Task → Bool) :
    ∀ (fuel : Nat) (st : PMState), PendingInv st →
      (∀ s ∈ (pmLoop nb tc oracle af fuel st).states, PendingInv s) ∧
      PendingInv (pmLoop nb tc oracle af fuel st).final := by
  intro fuel
  induction fuel with
  | zero =>
      intro st hinv
      rw [pmLoop]
      constructor
      · intro s hs
        simp only [List.mem_singleton] at hs
        subst hs
        exact hinv
      · exact hinv
  | succ n ih =>
      intro st hinv
      cases hstep : pmStep nb tc oracle af n st with
      | stop r =>
          rw [pmLoop_succ_stop hstep]
          obtain ⟨st1, evs1, hscan, hcases⟩ := pmStep_stop_elim hstep
          have hinv1 : PendingInv st1 := scanRel_pendingInv hscan hinv
          have hfin : r.final = st1 ∧ r.states = [] := by
            rcases hcases with ⟨_, _, rfl⟩ | ⟨_, _, rfl⟩ | ⟨dt, _, _, _, rfl⟩ <;>
              exact ⟨rfl, rfl⟩
          constructor
          · intro s hs
            dsimp only at hs
            rw [hfin.2] at hs
            simp only [List.mem_cons] at hs
            rcases hs with rfl | hs
            · exact hinv
            · cases hs
          · dsimp only
            rw [hfin.1]
            exact hinv1
      | next st' evs =>
          rw [pmLoop_succ_next hstep]
          obtain ⟨st1, evs1, hscan, hcases⟩ := pmStep_next_elim hstep
          have hinv1 : PendingInv st1 := scanRel_pendingInv hscan hinv
          have hinv' : PendingInv st' := by
            rcases hcases with ⟨_, _, rfl, _⟩ | ⟨dt, _, hdt, _, rfl, _⟩
            · exact hinv1
            · exact done_pendingInv _ hinv1 hdt
          obtain ⟨ihs, ihf⟩ := ih st' hinv'
          constructor
          · intro s hs
            simp only [List.mem_cons] at hs
            rcases hs with rfl | hs
            · exact hinv
            · exact ihs s hs
          · exact ihf

theorem isSkipOf_skip (t t' : Task) (pA : List String) :
    Event.isSkipOf t (Event.skipEv t' pA) = decide (t' = t) := rfl

theorem seqGo_args (nb : List String → List String → Bool) :
    ∀ (l : List Task), ∀ e ∈ seqGo nb l, ArgsOk e := by
  intro l
  induction l with
  | nil => intro e he; cases he
  | cons t rest ih =>
      intro e he
      rw [seqGo] at he
      split at he <;> simp only [List.mem_cons] at he
      · rcases he with rfl | rfl | rfl | he
        · exact ⟨rfl, rfl⟩
        · exact ⟨rfl, rfl, rfl⟩
        · exact ⟨rfl, rfl⟩
        · exact ih e he
      · rcases he with rfl | he
        · exact ⟨rfl, rfl⟩
        · exact ih e he

theorem seqGo_run_mem (nb : List String → List String → Bool) (t : Task)
    (nm : String) (ins os : List String) :
    ∀ (l : List Task), Event.actionRun t nm ins os ∈ seqGo nb l →
      nb t.outputs t.deps = true := by
  intro l
  induction l with
  | nil => intro he; cases he
  | cons thead rest ih =>
      intro he
      rw [seqGo] at he
      split at he
      next hnb =>
        simp only [List.mem_cons] at he
        rcases he with he | he | he | he
        · cases he
        · injection he with h1 h2 h3 h4
          subst h1
          exact hnb
        · cases he
        · exact ih he
      next hnb =>
        simp only [List.mem_cons] at he
        rcases he with he | he
        · cases he
        · exact ih he

theorem seqGo_jb_mem (nb : List String → List String → Bool) (t : Task)
    (os ds : List String) :
    ∀ (l : List Task), Event.justBuiltEv t os ds ∈ seqGo nb l →
      nb t.outputs t.deps = true := by
  intro l
  induction l with
  | nil => intro he; cases he
  | cons thead rest ih =>
      intro he
      rw [seqGo] at he
      split at he
      next hnb =>
        simp only [List.mem_cons] at he
        rcases he with he | he | he | he
        · cases he
        · cases he
        · injection he with h1 h2 h3
          subst h1
          exact hnb
        · exact ih he
      next hnb =>
        simp only [List.mem_cons] at he
        rcases he with he | he
        · cases he
        · exact ih he

theorem seqGo_no_save (nb : List String → List String → Bool) :
    ∀ (l : List Task), Event.saveCache ∉ seqGo nb l := by
  intro l
  induction l with
  | nil => intro he; cases he
  | cons t rest ih =>
      intro he
      rw [seqGo] at he
      split at he <;> simp only [List.mem_cons] at he
      · rcases he with he | he | he | he
        · cases he
        · cases he
        · cases he
        · exact ih he
      · rcases he with he | he
        · cases he
        · exact ih he

theorem initState_pendingInv (tasklist : List Task)
    (hdisj : List.Pairwise OutDisj tasklist) : PendingInv (initState tasklist) := by
  refine ⟨seedPending_nodup tasklist, ?_, ?_⟩
  · simpa [initState] using hdisj
  · intro x
    simp only [initState, List.append_nil]
    exact mem_seedPending x tasklist

theorem starved_step (tick : Nat) :
    pmStep (fun _ _ => true) 1 (fun _ => 0) (fun _ => false) tick
        (initState [taskCyclic]) =
      StepRes.next (initState [taskCyclic]) [] := rfl

theorem starved_step_outcome (fuel : Nat) :
    (pmLoop (fun _ _ => true) 1 (fun _ => 0) (fun _ => false) (fuel + 1)
        (initState [taskCyclic])).outcome =
      (pmLoop (fun _ _ => true) 1 (fun _ => 0) (fun _ => false) fuel
        (initState [taskCyclic])).outcome := by
  conv_lhs => rw [pmLoop]
  rw [starved_step fuel]

/-- C2: on an unsatisfiable dependency the scheduling loop never terminates.
With THREADCOUNT = 1 and the single task
[CompileAnything, ["c", [], []], ["c"], ["c"], []] (its explicit dep is its
own output, so AllSourcesReady is never true), every iteration of the while
loop takes the branch "if tasksqueued == 0: if len(tasklist) > 0: continue"
with an unchanged state: for every fuel bound the loop is still running, so
it reaches neither the 'Dependency problems' exit (which is unreachable,
since break requires an empty task list) nor any other exit.  The claim says
this starved state aborts with an unsatisfiable-dependency error instead of
hanging. -/
theorem parallelMake_hangs_on_unsatisfiable_dependency (fuel : Nat) :
    (ParallelMake (fun _ _ => true) 1 (fun _ => 0) (fun _ => false) fuel
        [taskCyclic]).outcome = PMOutcome.outOfFuel := by
  induction fuel with
  | zero => rfl
  | succ n ih =>
      unfold ParallelMake at ih ⊢
      rw [starved_step_outcome]
      exact ih

/-- C1: along every modelled execution of the ParallelMake scheduling loop,
whenever a task is dispatched (put on the task queue), none of its explicit
deps (task[3]), none of its ordered inputs (task[1][1]) and none of its
alternate deps (task[4]) is a key of the Pending Set at the moment of
dispatch — the pendingAt field of the dispatch event records the pending
dict at exactly that point of the scan. -/
theorem dispatch_only_when_sources_ready
    (nb : List String → List String → Bool) (tc : Nat) (oracle : Nat → Nat)
    (af : Task → Bool) (fuel : Nat) (tasklist : List Task) (t : Task)
    (pAt : List String) (tqA : Nat)
    (h : Event.dispatch t pAt tqA ∈ (ParallelMake nb tc oracle af fuel tasklist).trace) :
    (∀ x ∈ t.deps, x ∉ pAt) ∧ (∀ x ∈ t.inputs, x ∉ pAt) ∧
      (∀ x ∈ t.altdeps, x ∉ pAt) := by
  have hd := pmLoop_dispatch nb tc oracle af fuel (initState tasklist) t pAt tqA h
  exact (allSourcesReady_iff t pAt).mp hd.1

theorem dispatch_only_when_sources_ready_witness :
    (∀ x ∈ taskB.deps, x ∉ (["b"] : List String)) ∧
    (∀ x ∈ taskB.inputs, x ∉ (["b"] : List String)) ∧
    (∀ x ∈ taskB.altdeps, x ∉ (["b"] : List String)) :=
  dispatch_only_when_sources_ready (fun _ _ => true) 1 (fun _ => 0) (fun _ => false) 4
    [taskB, taskA] taskB ["b"] 1 (by decide)

/-- C3 counterexample: a run in which the single task taskA is ready and
NeedsBuild returns false.  The scheduler skips it (the skip event appears,
with its output deleted from pending) and the run succeeds, but no JustBuilt
call is ever made — neither in the parallel loop nor in the N=0 sequential
fallback — contradicting the claim that the skip is recorded via
recordBuilt (JustBuilt). -/
theorem skip_not_recorded_in_cache :
    (ParallelMake (fun _ _ => false) 1 (fun _ => 0) (fun _ => false) 3 [taskA]).outcome =
      PMOutcome.success ∧
    Event.skipEv taskA [] ∈
      (ParallelMake (fun _ _ => false) 1 (fun _ => 0) (fun _ => false) 3 [taskA]).trace ∧
    (ParallelMake (fun _ _ => false) 1 (fun _ => 0) (fun _ => false) 3
        [taskA]).trace.countP (Event.isJustBuiltOf taskA) = 0 ∧
    (SequentialMake (fun _ _ => false) [taskA]).countP (Event.isJustBuiltOf taskA) = 0 ∧
    (SequentialMake (fun _ _ => false) [taskA]).countP (Event.isRunOf taskA) = 0 := by
  decide

/-- C3 (amended): a ready task for which NeedsBuild returns false is treated
as instantly complete in the sense that its declared outputs are removed
from the Pending Set and neither its action nor a worker slot is used — but
the skip is NOT recorded via JustBuilt: in the parallel loop a skipped task
(in a duplicate-free task list) never has its action invoked and never gets
a JustBuilt call, and in the N=0 sequential fallback a task whose NeedsBuild
is false is simply passed over, with no action and no JustBuilt. -/
theorem skipped_task_never_runs_nor_recorded
    (nb : List String → List String → Bool) (tc : Nat) (oracle : Nat → Nat)
    (af : Task → Bool) (fuel : Nat) (tasklist : List Task) (t : Task)
    (pAfter : List String) (hnd : tasklist.Nodup)
    (hskip : Event.skipEv t pAfter ∈
      (ParallelMake nb tc oracle af fuel tasklist).trace) :
    (∀ nm ins os, Event.actionRun t nm ins os ∉
        (ParallelMake nb tc oracle af fuel tasklist).trace) ∧
    (∀ os ds, Event.justBuiltEv t os ds ∉
        (ParallelMake nb tc oracle af fuel tasklist).trace) ∧
    (∀ o ∈ t.outputs, o ∉ pAfter) ∧
    (∀ (nb2 : List String → List String → Bool) (l2 : List Task),
        nb2 t.outputs t.deps = false →
        (∀ nm ins os, Event.actionRun t nm ins os ∉ SequentialMake nb2 l2) ∧
        (∀ os ds, Event.justBuiltEv t os ds ∉ SequentialMake nb2 l2)) := by
  have hcount := pmLoop_skip_run_count nb tc oracle af t fuel (initState tasklist)
  have hjb := pmLoop_jb_le_run nb tc oracle af t fuel (initState tasklist)
  have hone : (initState tasklist).tasklist.count t +
      (initState tasklist).inflight.count t ≤ 1 := by
    simp only [initState, List.count_nil]
    have := List.nodup_iff_count_le_one.mp hnd t
    omega
  have hskipc : 0 < (pmLoop nb tc oracle af fuel (initState tasklist)).trace.countP
      (Event.isSkipOf t) :=
    List.countP_pos_iff.mpr ⟨_, hskip, by rw [isSkipOf_skip]; simp⟩
  refine ⟨?_, ?_, ?_, ?_⟩
  · intro nm ins os hrun
    have hrunc : 0 < (pmLoop nb tc oracle af fuel (initState tasklist)).trace.countP
        (Event.isRunOf t) :=
      List.countP_pos_iff.mpr ⟨_, hrun, by rw [isRunOf_run]; simp⟩
    omega
  · intro os ds hjbev
    have hjbc : 0 < (pmLoop nb tc oracle af fuel (initState tasklist)).trace.countP
        (Event.isJustBuiltOf t) :=
      List.countP_pos_iff.mpr ⟨_, hjbev, by rw [isJustBuiltOf_jb]; simp⟩
    omega
  · exact pmLoop_skipEv_pending nb tc oracle af t pAfter fuel (initState tasklist)
      (seedPending_nodup tasklist) hskip
  · intro nb2 l2 hfalse
    constructor
    · intro nm ins os hrun
      rw [seqGo_run_mem nb2 t nm ins os l2 hrun] at hfalse
      cases hfalse
    · intro os ds hjbev
      rw [seqGo_jb_mem nb2 t os ds l2 hjbev] at hfalse
      cases hfalse

theorem skipped_task_never_runs_nor_recorded_witness :
    (∀ nm ins os, Event.actionRun taskA nm ins os ∉
        (ParallelMake (fun _ _ => false) 1 (fun _ => 0) (fun _ => false) 3
          [taskA]).trace) ∧
    (∀ os ds, Event.justBuiltEv taskA os ds ∉
        (ParallelMake (fun _ _ => false) 1 (fun _ => 0) (fun _ => false) 3
          [taskA]).trace) ∧
    (∀ o ∈ taskA.outputs, o ∉ ([] : List String)) ∧
    (∀ (nb2 : List String → List String → Bool) (l2 : List Task),
        nb2 taskA.outputs taskA.deps = false →
        (∀ nm ins os, Event.actionRun taskA nm ins os ∉ SequentialMake nb2 l2) ∧
        (∀ os ds, Event.justBuiltEv taskA os ds ∉ SequentialMake nb2 l2)) :=
  skipped_task_never_runs_nor_recorded (fun _ _ => false) 1 (fun _ => 0) (fun _ => false)
    3 [taskA] taskA [] (by decide) (by decide)

/-- C4 counterexample: two independent tasks are dispatched together
(THREADCOUNT = 2); taskA's action raises, so its worker pushes the sentinel
0, and the scheduler exits immediately ("Build process aborting.") — taskD,
dispatched before the failure, is never allowed to finish and report: the
trace has a dispatch event for taskD but no action run and no JustBuilt for
it, so in-flight work is NOT drained before aborting, and the sentinel 0
carries no identification of the failing target. -/
theorem abort_leaves_inflight_undrained :
    (ParallelMake (fun _ _ => true) 2 (fun _ => 0) (fun t => decide (t = taskA)) 5
        [taskA, taskD]).outcome = PMOutcome.abortFailure ∧
    (ParallelMake (fun _ _ => true) 2 (fun _ => 0) (fun t => decide (t = taskA)) 5
        [taskA, taskD]).trace.countP (Event.isDispatchOf taskD) = 1 ∧
    (ParallelMake (fun _ _ => true) 2 (fun _ => 0) (fun t => decide (t = taskA)) 5
        [taskA, taskD]).trace.countP (Event.isRunOf taskD) = 0 ∧
    (ParallelMake (fun _ _ => true) 2 (fun _ => 0) (fun t => decide (t = taskA)) 5
        [taskA, taskD]).trace.countP (Event.isJustBuiltOf taskD) = 0 := by
  decide

/-- C4 (amended): the run aborts if and only if a failure sentinel is
consumed from the completion queue, and when it does the sentinel is the
very last event of the run: nothing — in particular no dispatch — happens
after the scheduler observes the first failure sentinel; it exits
immediately (with the generic message "Build process aborting.") without
draining the remaining in-flight work and without identifying the failing
target (the sentinel 0 carries no task identity). -/
theorem failure_sentinel_aborts_immediately
    (nb : List String → List String → Bool) (tc : Nat) (oracle : Nat → Nat)
    (af : Task → Bool) (fuel : Nat) (tasklist : List Task) :
    ((ParallelMake nb tc oracle af fuel tasklist).outcome = PMOutcome.abortFailure ↔
      Event.failSentinel ∈ (ParallelMake nb tc oracle af fuel tasklist).trace) ∧
    ((ParallelMake nb tc oracle af fuel tasklist).outcome = PMOutcome.abortFailure →
      ∃ pre, (ParallelMake nb tc oracle af fuel tasklist).trace =
          pre ++ [Event.failSentinel] ∧ Event.failSentinel ∉ pre) :=
  pmLoop_sentinel nb tc oracle af fuel (initState tasklist)

theorem failure_sentinel_aborts_immediately_witness :
    ∃ pre, (ParallelMake (fun _ _ => true) 2 (fun _ => 0) (fun t => decide (t = taskA)) 5
        [taskA, taskD]).trace = pre ++ [Event.failSentinel] ∧
      Event.failSentinel ∉ pre :=
  (failure_sentinel_aborts_immediately (fun _ _ => true) 2 (fun _ => 0)
    (fun t => decide (t = taskA)) 5 [taskA, taskD]).2 (by decide)

/-- C7: the dependency cache is persisted exactly once per invocation, in
the cleanup position: for every terminating run (success or abort, parallel
or sequential), the full program trace is the RunDependencyQueue trace
followed by exactly one saveCache event, and no save happens earlier.
SaveDependencyCache itself lives in makepandacore (outside these sources)
and is modelled from the spec as the saveCache trace event emitted by the
try/finally at the bottom of makepanda.py. -/
theorem cache_saved_exactly_once
    (nb : List String → List String → Bool) (tc : Nat) (oracle : Nat → Nat)
    (af : Task → Bool) (fuel : Nat) (tasklist : List Task)
    (_hterm : (runBuild nb tc oracle af fuel tasklist).1 ≠ PMOutcome.outOfFuel) :
    ∃ pre, (runBuild nb tc oracle af fuel tasklist).2 = pre ++ [Event.saveCache] ∧
      Event.saveCache ∉ pre := by
  refine ⟨(RunDependencyQueue nb tc oracle af fuel tasklist).2, rfl, ?_⟩
  rw [RunDependencyQueue]
  split
  · exact pmLoop_no_save nb tc oracle af fuel (initState tasklist)
  · exact seqGo_no_save nb tasklist

theorem cache_saved_exactly_once_witness :
    ∃ pre, (runBuild (fun _ _ => true) 1 (fun _ => 0) (fun _ => false) 4 [taskA]).2 =
        pre ++ [Event.saveCache] ∧ Event.saveCache ∉ pre :=
  cache_saved_exactly_once (fun _ _ => true) 1 (fun _ => 0) (fun _ => false) 4 [taskA]
    (by decide)

/-- C8: exactly THREADCOUNT worker threads are created, and the tasksqueued
counter never exceeds THREADCOUNT: every dispatch event records the counter
value right after the increment, which is always between 1 and THREADCOUNT
(so at most THREADCOUNT actions can be executing at any instant), and the
counter is still at most THREADCOUNT in the final state of any run. -/
theorem bounded_concurrency_and_worker_count
    (nb : List String → List String → Bool) (tc : Nat) (oracle : Nat → Nat)
    (af : Task → Bool) (fuel : Nat) (tasklist : List Task) :
    (createWorkers tc).length = tc ∧
    (∀ t pAt tqA,
        Event.dispatch t pAt tqA ∈ (ParallelMake nb tc oracle af fuel tasklist).trace →
        0 < tqA ∧ tqA ≤ tc) ∧
    (ParallelMake nb tc oracle af fuel tasklist).final.tasksqueued ≤ tc := by
  refine ⟨by simp [createWorkers], ?_, ?_⟩
  · intro t pAt tqA h
    have hd := pmLoop_dispatch nb tc oracle af fuel (initState tasklist) t pAt tqA h
    exact ⟨hd.2.1, hd.2.2⟩
  · exact pmLoop_final_tq_le nb tc oracle af fuel (initState tasklist)
      (Nat.zero_le tc)

theorem bounded_concurrency_and_worker_count_witness :
    0 < 1 ∧ 1 ≤ 1 :=
  (bounded_concurrency_and_worker_count (fun _ _ => true) 1 (fun _ => 0)
    (fun _ => false) 4 [taskB, taskA]).2.1 taskB ["b"] 1 (by decide)

/-- C9: before the loop starts the Pending Set contains every declared
output of every task, and — provided the registry contract holds, i.e. the
tasks' declared outputs are pairwise disjoint — at every entry of the while
loop and at the end of the run the Pending Set holds exactly the outputs of
the tasks that have not yet completed (still on the task list or in
flight).  Hence each entry is removed exactly once, at the moment its task
completes by being skipped or by having its success consumed, never while
the task is still incomplete and never twice. -/
theorem pending_seeded_and_tracks_completion
    (nb : List String → List String → Bool) (tc : Nat) (oracle : Nat → Nat)
    (af : Task → Bool) (fuel : Nat) (tasklist : List Task)
    (hdisj : List.Pairwise OutDisj tasklist) :
    (∀ t ∈ tasklist, ∀ o ∈ t.outputs, o ∈ (initState tasklist).pending) ∧
    (∀ s ∈ (ParallelMake nb tc oracle af fuel tasklist).states,
        ∀ x, x ∈ s.pending ↔ ∃ t, t ∈ s.tasklist ++ s.inflight ∧ x ∈ t.outputs) ∧
    (∀ x, x ∈ (ParallelMake nb tc oracle af fuel tasklist).final.pending ↔
        ∃ t, t ∈ (ParallelMake nb tc oracle af fuel tasklist).final.tasklist ++
            (ParallelMake nb tc oracle af fuel tasklist).final.inflight ∧
          x ∈ t.outputs) := by
  have hinv0 := initState_pendingInv tasklist hdisj
  have hrun := pmLoop_pendingInv nb tc oracle af fuel (initState tasklist) hinv0
  refine ⟨?_, ?_, ?_⟩
  · intro t ht o ho
    rw [show (initState tasklist).pending = seedPending tasklist from rfl,
      mem_seedPending, mem_allOutputs]
    exact ⟨t, ht, ho⟩
  · intro s hs x
    have := (hrun.1 s hs).2.2 x
    rw [this, mem_allOutputs]
  · intro x
    have h3 := hrun.2.2.2 x
    rw [mem_allOutputs] at h3
    exact h3

theorem pending_seeded_and_tracks_completion_witness :
    "b" ∈ (initState [taskB, taskA]).pending :=
  (pending_seeded_and_tracks_completion (fun _ _ => true) 1 (fun _ => 0)
    (fun _ => false) 4 [taskB, taskA] (by decide)).1 taskB (by decide) "b" (by decide)

/-- C10: in both ParallelMake and SequentialMake, every NeedsBuild call and
every JustBuilt call receives the task's declared outputs (task[2]) and its
explicit dep list (task[3]) — never the ordered input list (task[1][1]) —
while the action alone receives the name, the ordered input list and the
options (task[1]).  The event fields record the arguments passed at each
call site. -/
theorem staleness_checked_on_deps_not_inputs
    (nb : List String → List String → Bool) (tc : Nat) (oracle : Nat → Nat)
    (af : Task → Bool) (fuel : Nat) (tasklist : List Task) :
    (∀ t os ds res,
        Event.needsBuildEv t os ds res ∈
          (ParallelMake nb tc oracle af fuel tasklist).trace →
        os = t.outputs ∧ ds = t.deps) ∧
    (∀ t os ds,
        Event.justBuiltEv t os ds ∈
          (ParallelMake nb tc oracle af fuel tasklist).trace →
        os = t.outputs ∧ ds = t.deps) ∧
    (∀ t nm ins os,
        Event.actionRun t nm ins os ∈
          (ParallelMake nb tc oracle af fuel tasklist).trace →
        nm = t.name ∧ ins = t.inputs ∧ os = t.opts) ∧
    (∀ t os ds res,
        Event.needsBuildEv t os ds res ∈ SequentialMake nb tasklist →
        os = t.outputs ∧ ds = t.deps) ∧
    (∀ t os ds,
        Event.justBuiltEv t os ds ∈ SequentialMake nb tasklist →
        os = t.outputs ∧ ds = t.deps) ∧
    (∀ t nm ins os,
        Event.actionRun t nm ins os ∈ SequentialMake nb tasklist →
        nm = t.name ∧ ins = t.inputs ∧ os = t.opts) := by
  refine ⟨?_, ?_, ?_, ?_, ?_, ?_⟩
  · intro t os ds res he
    exact pmLoop_args nb tc oracle af fuel (initState tasklist) _ he
  · intro t os ds he
    exact pmLoop_args nb tc oracle af fuel (initState tasklist) _ he
  · intro t nm ins os he
    exact pmLoop_args nb tc oracle af fuel (initState tasklist) _ he
  · intro t os ds res he
    exact seqGo_args nb tasklist _ he
  · intro t os ds he
    exact seqGo_args nb tasklist _ he
  · intro t nm ins os he
    exact seqGo_args nb tasklist _ he

theorem staleness_checked_on_deps_not_inputs_witness :
    (["a"] : List String) = taskA.outputs ∧ ([] : List String) = taskA.deps :=
  (staleness_checked_on_deps_not_inputs (fun _ _ => false) 1 (fun _ => 0)
    (fun _ => false) 3 [taskA]).1 taskA ["a"] [] false (by decide)

end Makepanda
